import Mathlib

/-!
# Verification of the domain block-list checker (src/main.cpp)

The program stores every forbidden domain in reversed-label form
("math.gdz.ru" becomes "ru.gdz.math") inside a `std::set<std::string>`, and a
query is forbidden when some dot-prefix of its reversed form is in the set.

Strings are modelled as `List Char`.  The C++ `getline(ss, part, delim)` loop
is modelled by `getlineGo` / `getlineSplit`; note that `getline` fails (and the
loop stops) when no character can be extracted, so a trailing delimiter does
not produce a trailing empty part, and the empty string produces no parts.
-/

namespace DomainBlock

/-- The C++ loop `while (getline(ss, part, delim)) ...` collecting every part.
`acc` holds the characters of the part currently being read, in reverse.
Reaching the end of the stream finishes the current part; reading the
delimiter finishes the current part and continues with the rest, except that
when nothing remains after the delimiter the next `getline` extracts no
character and fails, so no further part is produced. -/
def getlineGo (delim : Char) : List Char → List Char → List (List Char)
  | [], acc => [acc.reverse]
  | c :: cs, acc =>
    if c = delim then
      acc.reverse :: (if cs.isEmpty then [] else getlineGo delim cs [])
    else
      getlineGo delim cs (c :: acc)

/-- All parts read by repeated `getline(ss, part, delim)` from stream `cs`.
On the empty stream the very first `getline` fails, giving no parts. -/
def getlineSplit (delim : Char) (cs : List Char) : List (List Char) :=
  if cs.isEmpty then [] else getlineGo delim cs []

/-- The joining loop of `Domain::ReverseDomain`: concatenates the given parts
separating consecutive parts with a dot (`if (it != parts.rbegin()) result += '.';`). -/
def joinParts : List (List Char) → List Char
  | [] => []
  | [p] => p
  | p :: q :: ps => p ++ '.' :: joinParts (q :: ps)

/-- `Domain::ReverseDomain`: split the domain on dots with `getline`, then
join the parts in reverse order with dots. -/
def ReverseDomain (domain : List Char) : List Char :=
  joinParts (getlineSplit '.' domain).reverse

/-- The C++ `Domain` class: stores only the reversed form of the domain.
Structural equality coincides with `operator==`, which compares
`reversed_domain_`. -/
structure Domain where
  reversed_domain_ : List Char
deriving DecidableEq

/-- The `Domain(const string&)` constructor. -/
def Domain.ofString (domain : List Char) : Domain :=
  ⟨ReverseDomain domain⟩

/-- `Domain::GetReversed`. -/
def Domain.GetReversed (d : Domain) : List Char :=
  d.reversed_domain_

/-- The loop body of `DomainChecker::IsForbidden`: for each part read from the
reversed form, extend `suffix` (adding a dot separator unless `suffix` is still
empty), and return true as soon as the set contains the suffix built so far. -/
def isForbiddenGo (s : Finset (List Char)) : List (List Char) → List Char → Bool
  | [], _ => false
  | p :: ps, suffix =>
    let suffix2 := (if suffix.isEmpty then suffix else suffix ++ ['.']) ++ p
    if suffix2 ∈ s then true else isForbiddenGo s ps suffix2

/-- The C++ `DomainChecker` class: a set of reversed forbidden domains. -/
structure DomainChecker where
  forbidden_reversed_ : Finset (List Char)

/-- The `DomainChecker(Iterator begin, Iterator end)` constructor: inserts
`GetReversed()` of every domain of the range into the set. -/
def DomainChecker.build (domains : List Domain) : DomainChecker :=
  ⟨domains.foldl (fun s d => insert d.GetReversed s) ∅⟩

/-- `DomainChecker::IsForbidden`: reads the parts of the reversed form with
`getline` and searches every accumulated dot-prefix in the set. -/
def DomainChecker.IsForbidden (c : DomainChecker) (d : Domain) : Bool :=
  isForbiddenGo c.forbidden_reversed_ (getlineSplit '.' d.GetReversed) []

/-- The spec's `NormalizedDomain` invariant on a label sequence: at least one
label and every label nonempty.  Labels are additionally dot-free, as any
label produced by splitting on dots is. -/
def NormalizedLabels (ps : List (List Char)) : Prop :=
  ps ≠ [] ∧ ∀ p ∈ ps, p ≠ [] ∧ '.' ∉ p

instance instDecNormalizedLabels (ps : List (List Char)) :
    Decidable (NormalizedLabels ps) :=
  decidable_of_iff (ps ≠ [] ∧ ∀ p ∈ ps, p ≠ [] ∧ '.' ∉ p) Iff.rfl

/-- The carriage-return stripping of `ReadDomains`:
`if (!line.empty() && line.back() == '\r') line.pop_back();`. -/
def stripCR (line : List Char) : List Char :=
  if line ≠ [] ∧ line.getLast? = some '\r' then line.dropLast else line

/-- `ReadDomains`: builds one `Domain` per line after stripping a trailing
`'\r'`.  The stream plus count interface is modelled by the list of the
`count` lines read. -/
def ReadDomains (lines : List (List Char)) : List Domain :=
  lines.map (fun line => Domain.ofString (stripCR line))

/-- The batch behaviour of `main`: read the forbidden domains, build the
checker, read the test domains, and print `Bad` or `Good` plus `endl` for
each.  `main`'s stream interaction is modelled by the two sequences of raw
lines it reads and the character stream it writes. -/
def mainOutput (forbidden_lines test_lines : List (List Char)) : List Char :=
  let checker := DomainChecker.build (ReadDomains forbidden_lines)
  ((ReadDomains test_lines).map (fun d =>
    (if checker.IsForbidden d then ("Bad".toList) else ("Good".toList)) ++ ['\n'])).flatten

/-- Modelled from the spec: "Splits `raw` on the `.` delimiter into labels,
preserving each label's original characters and case, discarding none
(including potentially empty labels ...)" — the standard split of a string on
dots, keeping every (possibly empty) dot-separated component. -/
def specSplit : List Char → List (List Char)
  | [] => [[]]
  | c :: cs =>
    if c = '.' then [] :: specSplit cs
    else
      match specSplit cs with
      | [] => [[c]]
      | p :: ps => (c :: p) :: ps

/-- The extraction `std::istringstream(line) >> num` for an unsigned `num`:
skip leading whitespace, then an optional sign followed by a nonempty digit
run (`strtoull`-style, a minus wraps modulo 2^64); `none` when no digit can be
extracted.  Out-of-range runs are not modelled. -/
def extractUnsigned (line : List Char) : Option Nat :=
  let rest := line.dropWhile (fun c => c == ' ' || c == '\t' || c == '\r')
  let signed : Bool × List Char :=
    match rest with
    | '-' :: r => (true, r)
    | '+' :: r => (false, r)
    | r => (false, r)
  let ds := signed.2.takeWhile (fun c => c.isDigit)
  if ds = [] then none
  else
    let v := ds.foldl (fun n c => 10 * n + (c.toNat - 48)) 0
    some (if signed.1 then (2 ^ 64 - v % 2 ^ 64) % 2 ^ 64 else v % 2 ^ 64)

/-- `ReadNumberOnLine`: reads a line and extracts a number from it with `>>`.
A failed extraction value-initializes the number (C++11), so a line with no
extractable number yields 0. -/
def ReadNumberOnLine (line : List Char) : Nat :=
  match extractUnsigned line with
  | some n => n
  | none => 0

-- Sanity checks mirroring `RunTests` of src/main.cpp.
example : (Domain.ofString ("math.gdz.ru".toList)).GetReversed = "ru.gdz.math".toList := by decide
example : (Domain.ofString ("com".toList)).GetReversed = "com".toList := by decide
example : (Domain.ofString ("a.b.c.com".toList)).GetReversed = "com.c.b.a".toList := by decide

example :
    (DomainChecker.build [Domain.ofString ("gdz.ru".toList), Domain.ofString ("maps.me".toList),
      Domain.ofString ("com".toList)]).IsForbidden (Domain.ofString ("math.gdz.ru".toList)) = true := by
  decide

example :
    (DomainChecker.build [Domain.ofString ("gdz.ru".toList), Domain.ofString ("maps.me".toList),
      Domain.ofString ("com".toList)]).IsForbidden (Domain.ofString ("freegdz.ru".toList)) = false := by
  decide

example :
    (DomainChecker.build [Domain.ofString ("m.gdz.ru".toList)]).IsForbidden
      (Domain.ofString ("gdz.ru".toList)) = false := by decide

example :
    (DomainChecker.build [Domain.ofString ("m.gdz.ru".toList)]).IsForbidden
      (Domain.ofString ("math.m.gdz.ru".toList)) = true := by decide

/-! ## Basic facts about the `getline` split -/

theorem getlineGo_ne_nil (delim : Char) (cs acc : List Char) :
    getlineGo delim cs acc ≠ [] := by
  induction cs generalizing acc with
  | nil => simp [getlineGo]
  | cons c cs ih =>
    by_cases hc : c = delim <;> simp [getlineGo, hc, ih]

/-- A `getline` over a stream free of the delimiter reads the whole stream as
one part. -/
theorem getlineGo_no_delim (delim : Char) (cs acc : List Char) (h : delim ∉ cs) :
    getlineGo delim cs acc = [acc.reverse ++ cs] := by
  induction cs generalizing acc with
  | nil => simp [getlineGo]
  | cons c cs ih =>
    have hc : ¬ c = delim := fun hc => h (hc ▸ List.mem_cons_self c cs)
    have h' : delim ∉ cs := fun hd => h (List.mem_cons_of_mem c hd)
    simp [getlineGo, hc, ih _ h']

theorem getlineGo_append_delim (delim : Char) (l rest acc : List Char) (h : delim ∉ l) :
    getlineGo delim (l ++ delim :: rest) acc =
      (acc.reverse ++ l) :: getlineSplit delim rest := by
  induction l generalizing acc with
  | nil =>
    simp [getlineGo, getlineSplit]
  | cons c l ih =>
    have hc : ¬ c = delim := fun hc => h (hc ▸ List.mem_cons_self c l)
    have h' : delim ∉ l := fun hd => h (List.mem_cons_of_mem c hd)
    simp [getlineGo, hc, ih _ h']

/-- Splitting a stream that starts with a delimiter-free part followed by a
delimiter yields that part followed by the split of the remainder. -/
theorem getlineSplit_append_delim (delim : Char) (l rest : List Char) (h : delim ∉ l) :
    getlineSplit delim (l ++ delim :: rest) = l :: getlineSplit delim rest := by
  have hne : (l ++ delim :: rest).isEmpty = false := by
    rcases l with _ | ⟨c, l⟩ <;> simp
  have h1 : getlineSplit delim (l ++ delim :: rest) =
      getlineGo delim (l ++ delim :: rest) [] := by
    simp [getlineSplit, hne]
  rw [h1]
  simpa using getlineGo_append_delim delim l rest [] h

theorem getlineSplit_no_delim (delim : Char) (cs : List Char) (hne : cs ≠ [])
    (h : delim ∉ cs) : getlineSplit delim cs = [cs] := by
  have hne' : cs.isEmpty = false := by rcases cs with _ | ⟨c, l⟩ <;> simp_all
  simp only [getlineSplit, hne', Bool.false_eq_true, if_false]
  simpa using getlineGo_no_delim delim cs [] h

/-! ## Basic facts about `joinParts` -/

theorem joinParts_cons (p : List Char) (q : List Char) (ps : List (List Char)) :
    joinParts (p :: q :: ps) = p ++ '.' :: joinParts (q :: ps) := rfl

theorem joinParts_ne_nil (p : List Char) (ps : List (List Char)) (hp : p ≠ []) :
    joinParts (p :: ps) ≠ [] := by
  cases ps with
  | nil => simpa [joinParts]
  | cons q ps => simp [joinParts_cons, hp]

/-- Gluing the first two parts with an explicit dot does not change the joined
string. -/
theorem joinParts_append_dot (a b : List Char) (ps : List (List Char)) :
    joinParts ((a ++ '.' :: b) :: ps) = joinParts (a :: b :: ps) := by
  cases ps with
  | nil => simp [joinParts]
  | cons q ps => simp [joinParts_cons, List.append_assoc]

/-- Round trip: splitting the dot-joined form of nonempty, dot-free parts
recovers exactly those parts. -/
theorem getlineSplit_joinParts (ps : List (List Char)) (hne : ps ≠ [])
    (h : ∀ p ∈ ps, p ≠ [] ∧ '.' ∉ p) :
    getlineSplit '.' (joinParts ps) = ps := by
  induction ps with
  | nil => exact absurd rfl hne
  | cons p ps ih =>
    obtain ⟨hp, hpdot⟩ := h p (List.mem_cons_self p ps)
    cases ps with
    | nil => simpa [joinParts] using getlineSplit_no_delim '.' p hp hpdot
    | cons q ps =>
      rw [joinParts_cons, getlineSplit_append_delim '.' p _ hpdot,
        ih (by simp) (fun r hr => h r (List.mem_cons_of_mem p hr))]

/-! ## Characterizing `IsForbidden` -/

theorem isForbiddenGo_empty_set (ps : List (List Char)) (suffix : List Char) :
    isForbiddenGo ∅ ps suffix = false := by
  induction ps generalizing suffix with
  | nil => rfl
  | cons p ps ih => simp [isForbiddenGo, ih]

/-- The candidate tried at step `k` of the loop started with the nonempty
accumulator `suffix` is the dot-join of `suffix` and the first `k` remaining
parts; the loop succeeds exactly when some such candidate is in the set. -/
theorem isForbiddenGo_true_iff (s : Finset (List Char)) (ps : List (List Char)) :
    ∀ suffix : List Char, suffix ≠ [] →
      (isForbiddenGo s ps suffix = true ↔
        ∃ k, 0 < k ∧ k ≤ ps.length ∧ joinParts (suffix :: ps.take k) ∈ s) := by
  induction ps with
  | nil =>
    intro suffix _
    simp only [isForbiddenGo, List.length_nil, Bool.false_eq_true, false_iff]
    rintro ⟨k, hk, hk', -⟩
    omega
  | cons p ps ih =>
    intro suffix hs
    have hs' : suffix.isEmpty = false := by
      rcases suffix with _ | ⟨c, l⟩ <;> simp_all
    have hsfx : (suffix ++ ['.']) ++ p = suffix ++ '.' :: p := by simp
    have hjoin : ∀ qs : List (List Char),
        joinParts ((suffix ++ '.' :: p) :: qs) = joinParts (suffix :: p :: qs) :=
      fun qs => joinParts_append_dot suffix p qs
    simp only [isForbiddenGo, hs', Bool.false_eq_true, if_false, hsfx]
    by_cases hmem : suffix ++ '.' :: p ∈ s
    · simp only [hmem, if_true, true_iff]
      exact ⟨1, Nat.one_pos, by simp, by simpa [joinParts] using hmem⟩
    · have hne2 : suffix ++ '.' :: p ≠ [] := by simp
      simp only [hmem, if_false]
      rw [ih (suffix ++ '.' :: p) hne2]
      constructor
      · rintro ⟨k, hk, hk', hin⟩
        refine ⟨k + 1, Nat.succ_pos k, by simpa using Nat.succ_le_succ hk', ?_⟩
        rw [List.take_succ_cons]
        rw [hjoin (ps.take k)] at hin
        exact hin
      · rintro ⟨k, hk, hk', hin⟩
        rcases k with _ | k
        · omega
        rcases k with _ | k
        · exact absurd (by simpa [joinParts] using hin) hmem
        refine ⟨k + 1, Nat.succ_pos k, by simpa using hk', ?_⟩
        rw [hjoin (ps.take (k + 1))]
        simpa using hin

/-- `IsForbidden` on a domain whose reversed form is the dot-join of nonempty,
dot-free parts succeeds exactly when the dot-join of some nonempty prefix of
those parts is in the set. -/
theorem IsForbidden_mk_iff (c : DomainChecker) (qs : List (List Char)) (hne : qs ≠ [])
    (h : ∀ p ∈ qs, p ≠ [] ∧ '.' ∉ p) :
    (c.IsForbidden ⟨joinParts qs⟩ = true ↔
      ∃ k, 0 < k ∧ k ≤ qs.length ∧ joinParts (qs.take k) ∈ c.forbidden_reversed_) := by
  rcases qs with _ | ⟨q, qs⟩
  · exact absurd rfl hne
  obtain ⟨hq, hqdot⟩ := h q (List.mem_cons_self q qs)
  have hsplit : getlineSplit '.' (Domain.GetReversed ⟨joinParts (q :: qs)⟩) = q :: qs :=
    getlineSplit_joinParts (q :: qs) (by simp) h
  rw [DomainChecker.IsForbidden, hsplit]
  have hstep : isForbiddenGo c.forbidden_reversed_ (q :: qs) [] =
      (if q ∈ c.forbidden_reversed_ then true
        else isForbiddenGo c.forbidden_reversed_ qs q) := rfl
  rw [hstep]
  by_cases hmem : q ∈ c.forbidden_reversed_
  · simp only [hmem, if_true, true_iff]
    exact ⟨1, Nat.one_pos, by simp, by simpa [joinParts] using hmem⟩
  · simp only [hmem, if_false]
    rw [isForbiddenGo_true_iff c.forbidden_reversed_ qs q hq]
    constructor
    · rintro ⟨k, hk, hk', hin⟩
      exact ⟨k + 1, Nat.succ_pos k, by simpa using Nat.succ_le_succ hk',
        by rwa [List.take_succ_cons]⟩
    · rintro ⟨k, hk, hk', hin⟩
      rcases k with _ | k
      · omega
      rcases k with _ | k
      · exact absurd (by simpa [joinParts] using hin) hmem
      exact ⟨k + 1, Nat.succ_pos k, by simpa using hk', by simpa using hin⟩

/-- The set built by the `DomainChecker` constructor holds exactly the
reversed forms of the domains of the range. -/
theorem mem_build (l : List Domain) (x : List Char) :
    x ∈ (DomainChecker.build l).forbidden_reversed_ ↔ ∃ d ∈ l, d.GetReversed = x := by
  suffices hgen : ∀ (l : List Domain) (s : Finset (List Char)),
      x ∈ l.foldl (fun s d => insert d.GetReversed s) s ↔
        x ∈ s ∨ ∃ d ∈ l, d.GetReversed = x by
    simpa [DomainChecker.build] using hgen l ∅
  intro l
  induction l with
  | nil => simp
  | cons d rest ih =>
    intro s
    rw [List.foldl_cons, ih]
    simp only [Finset.mem_insert, List.mem_cons]
    constructor
    · rintro (⟨h | h⟩ | ⟨e, he, hx⟩)
      · exact Or.inr ⟨d, Or.inl rfl, h.symm⟩
      · exact Or.inl h
      · exact Or.inr ⟨e, Or.inr he, hx⟩
    · rintro (h | ⟨e, he | he, hx⟩)
      · exact Or.inl (Or.inr h)
      · exact Or.inl (Or.inl (he ▸ hx.symm))
      · exact Or.inr ⟨e, he, hx⟩

/-- Two checkers with the same underlying set answer every query alike. -/
theorem IsForbidden_congr (c₁ c₂ : DomainChecker)
    (h : c₁.forbidden_reversed_ = c₂.forbidden_reversed_) (q : Domain) :
    c₁.IsForbidden q = c₂.IsForbidden q := by
  simp [DomainChecker.IsForbidden, h]

/-- `GetReversed` after the constructor computes `ReverseDomain`. -/
theorem GetReversed_ofString (raw : List Char) :
    (Domain.ofString raw).GetReversed = ReverseDomain raw := rfl

/-- On the dot-join of reversed nonempty dot-free parts, `ReverseDomain`
computes the dot-join of the parts in original order. -/
theorem ReverseDomain_joinParts_reverse (ps : List (List Char)) (hne : ps ≠ [])
    (h : ∀ p ∈ ps, p ≠ [] ∧ '.' ∉ p) :
    ReverseDomain (joinParts ps.reverse) = joinParts ps := by
  rw [ReverseDomain, getlineSplit_joinParts ps.reverse (by simpa)
    (fun p hp => h p (List.mem_reverse.mp hp)), List.reverse_reverse]

/-- On the dot-join of nonempty dot-free parts, `ReverseDomain` computes the
dot-join of the reversed parts. -/
theorem ReverseDomain_joinParts (ps : List (List Char)) (hne : ps ≠ [])
    (h : ∀ p ∈ ps, p ≠ [] ∧ '.' ∉ p) :
    ReverseDomain (joinParts ps) = joinParts ps.reverse := by
  rw [ReverseDomain, getlineSplit_joinParts ps hne h]

/-! ## The claims -/

/-- C1: for the index built from any entry sequence and a query whose
label sequence `qs` (top-level label first) is normalized, `IsForbidden`
returns true exactly when the dot-join of some nonempty ancestor-or-self
prefix of `qs` — top-level alone, top-level plus next, …, the full domain —
is the stored key of some entry, and false when no such candidate matches. -/
theorem C1_isForbidden_checks_ancestor_candidates (entries : List Domain)
    (qs : List (List Char)) (h : NormalizedLabels qs) :
    ((DomainChecker.build entries).IsForbidden
        (Domain.ofString (joinParts qs.reverse)) = true ↔
      ∃ k, 0 < k ∧ k ≤ qs.length ∧
        ∃ d ∈ entries, d.GetReversed = joinParts (qs.take k)) := by
  obtain ⟨hne, hlab⟩ := h
  have hrev : Domain.ofString (joinParts qs.reverse) = ⟨joinParts qs⟩ := by
    rw [Domain.ofString, ReverseDomain_joinParts_reverse qs hne hlab]
  rw [hrev, IsForbidden_mk_iff _ qs hne hlab]
  constructor
  · rintro ⟨k, hk, hk', hin⟩
    exact ⟨k, hk, hk', (mem_build entries _).mp hin⟩
  · rintro ⟨k, hk, hk', hin⟩
    exact ⟨k, hk, hk', (mem_build entries _).mpr hin⟩

/-- Witness for C1 at the index {"gdz.ru"} and the query "math.gdz.ru". -/
theorem C1_witness :
    NormalizedLabels [("ru".toList), ("gdz".toList), ("math".toList)] ∧
    ((DomainChecker.build [Domain.ofString ("gdz.ru".toList)]).IsForbidden
        (Domain.ofString
          (joinParts ([("ru".toList), ("gdz".toList), ("math".toList)] :
            List (List Char)).reverse)) = true ↔
      ∃ k, 0 < k ∧
        k ≤ ([("ru".toList), ("gdz".toList), ("math".toList)] : List (List Char)).length ∧
        ∃ d ∈ [Domain.ofString ("gdz.ru".toList)],
          d.GetReversed =
            joinParts (([("ru".toList), ("gdz".toList), ("math".toList)] :
              List (List Char)).take k)) :=
  ⟨by decide, C1_isForbidden_checks_ancestor_candidates _ _ (by decide)⟩

/-- C2: after inserting the normalized domain with label sequence `ds`
(top-level first), every query whose label sequence extends `ds` by zero or
more further labels — the domain itself and all its subdomains — is
forbidden. -/
theorem C2_inserted_domain_blocks_self_and_subdomains (entries : List Domain)
    (ds extra : List (List Char)) (hds : NormalizedLabels ds)
    (hextra : ∀ p ∈ extra, p ≠ [] ∧ '.' ∉ p)
    (hmem : Domain.ofString (joinParts ds.reverse) ∈ entries) :
    (DomainChecker.build entries).IsForbidden
      (Domain.ofString (joinParts (ds ++ extra).reverse)) = true := by
  obtain ⟨hne, hlab⟩ := hds
  have hall : ∀ p ∈ ds ++ extra, p ≠ [] ∧ '.' ∉ p := by
    intro p hp
    rcases List.mem_append.mp hp with h | h
    exacts [hlab p h, hextra p h]
  have hne2 : ds ++ extra ≠ [] := by
    rcases ds with _ | ⟨d0, ds⟩
    · exact absurd rfl hne
    · simp
  have hrev : Domain.ofString (joinParts (ds ++ extra).reverse) =
      ⟨joinParts (ds ++ extra)⟩ := by
    rw [Domain.ofString, ReverseDomain_joinParts_reverse _ hne2 hall]
  rw [hrev, IsForbidden_mk_iff _ _ hne2 hall]
  refine ⟨ds.length, List.length_pos.mpr hne, by simp, ?_⟩
  rw [List.take_left]
  refine (mem_build entries _).mpr ⟨_, hmem, ?_⟩
  rw [GetReversed_ofString, ReverseDomain_joinParts_reverse ds hne hlab]

/-- Witness for C2: "m.gdz.ru" inserted blocks its subdomain "math.m.gdz.ru". -/
theorem C2_witness :
    (DomainChecker.build [Domain.ofString ("m.gdz.ru".toList)]).IsForbidden
      (Domain.ofString
        (joinParts (([("ru".toList), ("gdz".toList), ("m".toList)] ++
          [("math".toList)]).reverse))) = true :=
  C2_inserted_domain_blocks_self_and_subdomains _ _ _ (by decide) (by decide) (by decide)

/-- C3: if no inserted entry's label sequence is a prefix of the normalized
query's label sequence, `IsForbidden` answers false; and the index built from
zero entries answers false for every query whatsoever. -/
theorem C3_no_prefix_entry_not_blocked :
    (∀ (es : List (List (List Char))) (qs : List (List Char)),
        (∀ e ∈ es, NormalizedLabels e) → NormalizedLabels qs →
        (∀ e ∈ es, ¬ e <+: qs) →
        (DomainChecker.build
            (es.map (fun e => Domain.ofString (joinParts e.reverse)))).IsForbidden
          (Domain.ofString (joinParts qs.reverse)) = false) ∧
    (∀ q : Domain, (DomainChecker.build []).IsForbidden q = false) := by
  constructor
  · intro es qs hes hqs hpre
    obtain ⟨hne, hlab⟩ := hqs
    have hrev : Domain.ofString (joinParts qs.reverse) = ⟨joinParts qs⟩ := by
      rw [Domain.ofString, ReverseDomain_joinParts_reverse qs hne hlab]
    rw [hrev]
    cases hval : (DomainChecker.build
        (es.map (fun e => Domain.ofString (joinParts e.reverse)))).IsForbidden
        ⟨joinParts qs⟩ with
    | false => rfl
    | true =>
      exfalso
      rw [IsForbidden_mk_iff _ qs hne hlab] at hval
      obtain ⟨k, hk, hk', hin⟩ := hval
      obtain ⟨d, hd, hdrev⟩ := (mem_build _ _).mp hin
      obtain ⟨e, he, rfl⟩ := List.mem_map.mp hd
      obtain ⟨hene, helab⟩ := hes e he
      rw [GetReversed_ofString, ReverseDomain_joinParts_reverse e hene helab] at hdrev
      have htake_ne : qs.take k ≠ [] := by
        rcases qs with _ | ⟨q0, qs⟩
        · exact absurd rfl hne
        · rcases k with _ | k
          · omega
          · simp
      have htake_lab : ∀ p ∈ qs.take k, p ≠ [] ∧ '.' ∉ p :=
        fun p hp => hlab p (List.mem_of_mem_take hp)
      have heq : e = qs.take k := by
        have h₁ := getlineSplit_joinParts e hene helab
        have h₂ := getlineSplit_joinParts (qs.take k) htake_ne htake_lab
        rw [← h₁, ← h₂, hdrev]
      exact hpre e he (heq ▸ List.take_prefix k qs)
  · intro q
    have hempty : (DomainChecker.build []).forbidden_reversed_ = ∅ := rfl
    rw [DomainChecker.IsForbidden, hempty, isForbiddenGo_empty_set]

/-- Witness for C3: entry "maps.me" is no prefix of query "gdz.ru", which is
therefore not blocked. -/
theorem C3_witness :
    (DomainChecker.build
        ([[("me".toList), ("maps".toList)]].map
          (fun e => Domain.ofString (joinParts e.reverse)))).IsForbidden
      (Domain.ofString
        (joinParts ([("ru".toList), ("gdz".toList)] : List (List Char)).reverse)) =
      false :=
  C3_no_prefix_entry_not_blocked.1 _ _ (by decide) (by decide) (by decide)

/-- C4: building the index from a sequence with a duplicated entry gives the
same verdict as building it without the duplicate, for every query. -/
theorem C4_duplicate_insert_no_effect (xs ys zs : List Domain) (d : Domain)
    (q : Domain) :
    (DomainChecker.build (xs ++ d :: ys ++ d :: zs)).IsForbidden q =
      (DomainChecker.build (xs ++ d :: ys ++ zs)).IsForbidden q := by
  apply IsForbidden_congr
  apply Finset.ext
  intro x
  rw [mem_build, mem_build]
  have hm : ∀ e : Domain,
      e ∈ xs ++ d :: ys ++ d :: zs ↔ e ∈ xs ++ d :: ys ++ zs := by
    intro e
    simp only [List.mem_append, List.mem_cons]
    tauto
  exact ⟨fun ⟨e, he, hx⟩ => ⟨e, (hm e).mp he, hx⟩,
    fun ⟨e, he, hx⟩ => ⟨e, (hm e).mpr he, hx⟩⟩

/-- C5: two entry sequences with the same members — any order, any
duplication — give indexes answering every query alike. -/
theorem C5_insertion_order_irrelevant (l₁ l₂ : List Domain)
    (h : ∀ d : Domain, d ∈ l₁ ↔ d ∈ l₂) (q : Domain) :
    (DomainChecker.build l₁).IsForbidden q =
      (DomainChecker.build l₂).IsForbidden q := by
  apply IsForbidden_congr
  apply Finset.ext
  intro x
  rw [mem_build, mem_build]
  exact ⟨fun ⟨e, he, hx⟩ => ⟨e, (h e).mp he, hx⟩,
    fun ⟨e, he, hx⟩ => ⟨e, (h e).mpr he, hx⟩⟩

/-- Witness for C5: a permutation with a duplicate answers "math.gdz.ru"
like the original two-entry sequence. -/
theorem C5_witness :
    (DomainChecker.build [Domain.ofString ("gdz.ru".toList),
        Domain.ofString ("com".toList)]).IsForbidden
        (Domain.ofString ("math.gdz.ru".toList)) =
      (DomainChecker.build [Domain.ofString ("com".toList),
        Domain.ofString ("gdz.ru".toList),
        Domain.ofString ("com".toList)]).IsForbidden
        (Domain.ofString ("math.gdz.ru".toList)) :=
  C5_insertion_order_irrelevant _ _
    (fun d => by simp only [List.mem_cons, List.not_mem_nil, or_false]; tauto) _

/-- Reading lines back from a stream of delimiter-terminated lines recovers
exactly those lines. -/
theorem getlineSplit_flatten_terminated (delim : Char) (ls : List (List Char))
    (h : ∀ l ∈ ls, delim ∉ l) :
    getlineSplit delim ((ls.map (fun l => l ++ [delim])).flatten) = ls := by
  induction ls with
  | nil => rfl
  | cons l ls ih =>
    have hflat : (((l :: ls).map (fun l => l ++ [delim])).flatten) =
        l ++ delim :: ((ls.map (fun l => l ++ [delim])).flatten) := by
      simp
    rw [hflat, getlineSplit_append_delim delim _ _ (h l (List.mem_cons_self l ls)),
      ih (fun x hx => h x (List.mem_cons_of_mem l hx))]

/-- A stream of delimiter-terminated delimiter-free lines holds one delimiter
per line. -/
theorem count_flatten_terminated (delim : Char) (ls : List (List Char))
    (h : ∀ l ∈ ls, delim ∉ l) :
    ((ls.map (fun l => l ++ [delim])).flatten).count delim = ls.length := by
  induction ls with
  | nil => rfl
  | cons l ls ih =>
    have hzero : l.count delim = 0 :=
      List.count_eq_zero.mpr (h l (List.mem_cons_self l ls))
    have hrest := ih (fun x hx => h x (List.mem_cons_of_mem l hx))
    simp [List.count_append, hzero, hrest, Nat.add_comm]

/-- C6: the emitted stream consists of exactly one newline-terminated line per
query, in query order, reading `Bad` when the query is forbidden and `Good`
otherwise: splitting the stream on newlines yields the per-query verdicts and
the stream holds as many newlines as there are query lines. -/
theorem C6_output_one_verdict_line_per_query (F Q : List (List Char)) :
    getlineSplit '\n' (mainOutput F Q) =
      (ReadDomains Q).map (fun d =>
        if (DomainChecker.build (ReadDomains F)).IsForbidden d
        then ("Bad".toList) else ("Good".toList)) ∧
    (mainOutput F Q).count '\n' = Q.length := by
  have hnl : ∀ l ∈ (ReadDomains Q).map (fun d =>
      if (DomainChecker.build (ReadDomains F)).IsForbidden d
      then ("Bad".toList) else ("Good".toList)), '\n' ∉ l := by
    intro l hl
    obtain ⟨d, _, rfl⟩ := List.mem_map.mp hl
    by_cases hd : (DomainChecker.build (ReadDomains F)).IsForbidden d <;>
      simp [hd]
  have h1 : mainOutput F Q =
      (((ReadDomains Q).map (fun d =>
        if (DomainChecker.build (ReadDomains F)).IsForbidden d
        then ("Bad".toList) else ("Good".toList))).map
          (fun l => l ++ ['\n'])).flatten := by
    rw [List.map_map]
    rfl
  refine ⟨?_, ?_⟩
  · rw [h1, getlineSplit_flatten_terminated '\n' _ hnl]
  · rw [h1, count_flatten_terminated '\n' _ hnl]
    simp [ReadDomains]

/-- Counterexample to C7 as stated: the raw strings "a." and "a" differ, yet
`getline` drops the empty label after the trailing dot, so both normalize to
the same `Domain`. -/
theorem C7_counterexample_trailing_dot :
    Domain.ofString ("a.".toList) = Domain.ofString ("a".toList) ∧
      ("a.".toList ≠ "a".toList) := by
  exact ⟨by decide, by decide⟩

/-- C7 (amended): restricted to raw strings that are dot-joins of nonempty
label sequences with nonempty dot-free labels — raw strings with no empty
label, hence no leading, trailing or double dot and not the empty string —
the normalized `Domain` values are equal exactly when the raw strings are
identical. -/
theorem C7_normalized_equal_iff_raw_identical (ps₁ ps₂ : List (List Char))
    (h₁ : NormalizedLabels ps₁) (h₂ : NormalizedLabels ps₂) :
    (Domain.ofString (joinParts ps₁) = Domain.ofString (joinParts ps₂) ↔
      joinParts ps₁ = joinParts ps₂) := by
  obtain ⟨hne₁, hlab₁⟩ := h₁
  obtain ⟨hne₂, hlab₂⟩ := h₂
  constructor
  · intro h
    have hrev : ReverseDomain (joinParts ps₁) = ReverseDomain (joinParts ps₂) :=
      congrArg Domain.reversed_domain_ h
    rw [ReverseDomain_joinParts ps₁ hne₁ hlab₁,
      ReverseDomain_joinParts ps₂ hne₂ hlab₂] at hrev
    have e₁ := getlineSplit_joinParts ps₁.reverse (by simpa using hne₁)
      (fun p hp => hlab₁ p (List.mem_reverse.mp hp))
    have e₂ := getlineSplit_joinParts ps₂.reverse (by simpa using hne₂)
      (fun p hp => hlab₂ p (List.mem_reverse.mp hp))
    have hps : ps₁.reverse = ps₂.reverse := by rw [← e₁, ← e₂, hrev]
    rw [List.reverse_injective hps]
  · intro h
    rw [Domain.ofString, Domain.ofString, h]

/-- Witness for C7 (amended) at the raw strings "math.gdz.ru" and "gdz.ru". -/
theorem C7_witness :
    (Domain.ofString (joinParts [("math".toList), ("gdz".toList), ("ru".toList)]) =
        Domain.ofString (joinParts [("gdz".toList), ("ru".toList)]) ↔
      joinParts [("math".toList), ("gdz".toList), ("ru".toList)] =
        joinParts [("gdz".toList), ("ru".toList)]) :=
  C7_normalized_equal_iff_raw_identical _ _ (by decide) (by decide)

theorem specSplit_ne_nil (cs : List Char) : specSplit cs ≠ [] := by
  induction cs with
  | nil => simp [specSplit]
  | cons c cs ih =>
    by_cases hc : c = '.'
    · simp [specSplit, hc]
    · rcases hsp : specSplit cs with _ | ⟨p, ps⟩ <;> simp [specSplit, hc, hsp]

/-- The accumulator of the `getline` loop only prepends (reversed) onto the
first part produced. -/
theorem getlineGo_accumulator (delim : Char) (cs : List Char) : ∀ acc : List Char,
    getlineGo delim cs acc =
      (acc.reverse ++ (getlineGo delim cs []).headI) :: (getlineGo delim cs []).tail := by
  induction cs with
  | nil => intro acc; simp [getlineGo]
  | cons c cs ih =>
    intro acc
    by_cases hc : c = delim
    · simp [getlineGo, hc]
    · have l₁ : getlineGo delim (c :: cs) acc = getlineGo delim cs (c :: acc) := by
        simp [getlineGo, hc]
      have l₂ : getlineGo delim (c :: cs) [] = getlineGo delim cs [c] := by
        simp [getlineGo, hc]
      rw [l₁, l₂, ih (c :: acc), ih [c]]
      simp

/-- The spec-side split agrees with the `getline` split except for one extra
trailing empty component, present exactly when the raw string is empty or
ends with a dot. -/
theorem specSplit_eq_getlineSplit (raw : List Char) :
    specSplit raw = getlineSplit '.' raw ++
      (if raw.getLast? = some '.' ∨ raw = [] then [[]] else []) := by
  induction raw with
  | nil => simp [specSplit, getlineSplit]
  | cons c cs ih =>
    by_cases hc : c = '.'
    · subst hc
      rcases cs with _ | ⟨c', cs'⟩
      · decide
      · have h₁ : specSplit ('.' :: c' :: cs') = [] :: specSplit (c' :: cs') := by
          simp [specSplit]
        have h₂ : getlineSplit '.' ('.' :: c' :: cs') =
            [] :: getlineSplit '.' (c' :: cs') := by
          simp [getlineSplit, getlineGo]
        rw [h₁, h₂, ih, List.getLast?_cons_cons]
        simp
    · rcases cs with _ | ⟨c', cs'⟩
      · simp [specSplit, getlineSplit, getlineGo, hc]
      · rcases hG : getlineGo '.' (c' :: cs') [] with _ | ⟨a, t⟩
        · exact absurd hG (getlineGo_ne_nil '.' (c' :: cs') [])
        have hgl : getlineSplit '.' (c' :: cs') = a :: t := by
          simpa [getlineSplit] using hG
        have hspec : specSplit (c' :: cs') =
            a :: (t ++ (if (c' :: cs').getLast? = some '.' ∨ (c' : Char) :: cs' = []
              then [[]] else [])) := by
          rw [ih, hgl]
          simp
        have hLHS : specSplit (c :: c' :: cs') =
            (c :: a) :: (t ++ (if (c' :: cs').getLast? = some '.' ∨ (c' : Char) :: cs' = []
              then [[]] else [])) := by
          rw [specSplit, if_neg hc, hspec]
        have hacc := getlineGo_accumulator '.' (c' :: cs') [c]
        rw [hG] at hacc
        have hRHS : getlineSplit '.' (c :: c' :: cs') = (c :: a) :: t := by
          have hu : getlineSplit '.' (c :: c' :: cs') =
              getlineGo '.' (c' :: cs') [c] := by
            simp [getlineSplit, getlineGo, hc]
          rw [hu, hacc]
          simp
        rw [hLHS, hRHS, List.getLast?_cons_cons]
        simp

/-- Counterexample to C8 as stated: for the raw string "a." the normalizer's
label sequence is not the reversal of all dot-separated components — the
empty label after the trailing dot is discarded. -/
theorem C8_counterexample_trailing_empty_label :
    (getlineSplit '.' ("a.".toList)).reverse ≠ (specSplit ("a.".toList)).reverse := by
  decide

/-- C8 (amended): `ReverseDomain` splits the raw string into the `getline`
parts and reverses them, and those parts are the dot-separated components of
the raw string except that the final component is dropped when it is the
empty component produced by a trailing dot or by the empty raw string; all
other (leading or inner) empty labels are preserved. -/
theorem C8_split_drops_only_trailing_empty_label (raw : List Char) :
    ReverseDomain raw = joinParts (getlineSplit '.' raw).reverse ∧
      getlineSplit '.' raw =
        (if raw.getLast? = some '.' ∨ raw = []
          then (specSplit raw).dropLast else specSplit raw) := by
  refine ⟨rfl, ?_⟩
  by_cases h : raw.getLast? = some '.' ∨ raw = []
  · rw [if_pos h]
    have := specSplit_eq_getlineSplit raw
    rw [if_pos h] at this
    rw [this, List.dropLast_concat]
  · rw [if_neg h]
    have := specSplit_eq_getlineSplit raw
    rw [if_neg h] at this
    rw [this, List.append_nil]

/-- Counterexample to C9 as stated: a count line that is not a non-negative
integer is not rejected — it yields the very same count, 0, as the legitimate
count line "0", so the program silently proceeds. -/
theorem C9_counterexample_silent_default :
    ReadNumberOnLine ("not a number".toList) = 0 ∧
      ReadNumberOnLine ("0".toList) = 0 := by
  exact ⟨by decide, by decide⟩

/-- C9 (amended): when no number can be extracted from the count line, the
program silently defaults the count to the value-initialized 0 (and therefore
reads zero subsequent lines) instead of failing fast. -/
theorem C9_malformed_count_defaults_to_zero (line : List Char)
    (h : extractUnsigned line = none) :
    ReadNumberOnLine line = 0 := by
  simp [ReadNumberOnLine, h]

/-- Witness for C9 (amended) at the unparseable count line "abc". -/
theorem C9_witness :
    extractUnsigned ("abc".toList) = none ∧ ReadNumberOnLine ("abc".toList) = 0 :=
  ⟨by decide, C9_malformed_count_defaults_to_zero _ (by decide)⟩

/-- C10: the domain built from the empty raw line has an empty reversed form,
so the `IsForbidden` loop runs zero iterations and answers false for every
checker — in particular for the index holding that very empty domain. -/
theorem C10_empty_domain_never_blocked :
    (∀ c : DomainChecker, c.IsForbidden (Domain.ofString []) = false) ∧
      (DomainChecker.build [Domain.ofString []]).IsForbidden
        (Domain.ofString []) = false :=
  ⟨fun _ => rfl, rfl⟩

end DomainBlock
